import Mathlib

/-!
Verification development for the MEVAL bulk loader (src/loader.py, src/parser.py).

The loader streams TSV chunks, extracts entity records and edge descriptors,
and issues idempotent batched upserts against a property-graph store.  The
definitions below are a shallow embedding of that code:

* a pandas DataFrame chunk (read with dtype=str, keep_default_na=False) is a
  header column list plus rows of string cells; an absent cell entry models a
  NaN/absent value and reads back as the empty string, matching the pd.isna
  conversion applied by the extractors;
* the graph store is a list of nodes (label, property map, timestamps) and a
  list of relationships between node indices; Cypher MERGE / SET semantics are
  spelled out record by record exactly as the generated statements act;
* Python string helpers that the loader uses (split(".") , "." in col, tuple
  comparison for sorted) are defined over the character data of the strings.
-/

set_option linter.unusedVariables false

namespace MEVAL

/-- Association-list lookup keyed by decidable string equality (dict access). -/
def alookup {α : Type} (k : String) : List (String × α) → Option α
  | [] => none
  | (k', v) :: rest => if k = k' then some v else alookup k rest

/-- Row of a DataFrame chunk: association list from column name to raw text
value.  A missing entry models an absent/NaN cell. -/
abbrev Row := List (String × String)

/-- Cell access: an absent entry reads as the empty string, matching
keep_default_na=False and the pd.isna-to-empty-string conversion. -/
def rowCell (r : Row) (c : String) : String := (alookup c r).getD ""

/-- DataFrame chunk: header columns plus data rows. -/
structure Chunk where
  columns : List String
  rows : List Row

/-- Entity record: flat property-name to string-value map (loader.py builds
these as dicts whose keys are exactly the retained columns). -/
abbrev Record := List (String × String)

/-- Key set of a record (dict.keys()). -/
def recKeys (r : Record) : List String := r.map Prod.fst

/-- Python `"." in col`: the column name contains the relationship separator. -/
def hasRelSep (c : String) : Bool := decide ('.' ∈ c.data)

/-- Column filter of generate_chunk_records: keep every column except the
subgraph column, the reserved "type" column and relationship columns. -/
def columnsToKeep (columns : List String) (subgraphCol : Option String) : List String :=
  columns.filter (fun c =>
    decide (subgraphCol ≠ some c) && decide (c ≠ "type") && !(hasRelSep c))

/-- generate_chunk_records (loader.py): read the chunk type from the first
row's "type" column (an empty chunk raises at `.iloc[0]`) and build one record
per row from the retained columns, converting absent cells to "". -/
def generate_chunk_records (chunk : Chunk) (subgraphCol : Option String) :
    Except String (String × List Record) :=
  match chunk.rows with
  | [] => .error "IndexError: index 0 is out of bounds"
  | row0 :: _ =>
    .ok (rowCell row0 "type",
      chunk.rows.map (fun r =>
        (columnsToKeep chunk.columns subgraphCol).map (fun c => (c, rowCell r c))))

/-- Property map of a stored graph node: `none` means the property is absent. -/
abbrev Props := String → Option String

/-- Stored graph node: label, properties, and the created/updated timestamps
that the upsert statements stamp separately from the record properties. -/
structure DBNode where
  label : String
  props : Props
  created : Option Nat
  updated : Option Nat

/-- Effect of the generated SET clause `n.k = record.k` over the key list `ks`:
every key in the clause takes the record's value (a key absent from the record
sets the property to null, i.e. removes it); other properties are untouched. -/
def setProps (ks : List String) (r : Record) (p : Props) : Props :=
  fun k => if k ∈ ks then alookup k r else p k

/-- Union of all property keys across the batch (the Python code collects them
into a set; only membership is ever used, so duplicates are irrelevant). -/
def allKeys (records : List Record) : List String :=
  records.foldr (fun r acc => recKeys r ++ acc) []

/-- Identifying value of a record (`record.{id_field}` in the statement). -/
def idOf (idField : String) (r : Record) : Option String := alookup idField r

/-- MERGE pattern match: a node with the requested label whose identifying
property equals the record's identifying value. -/
def nodeMatches (τ idField : String) (v : Option String) (n : DBNode) : Bool :=
  decide (n.label = τ) && decide (n.props idField = v)

/-- Properties a MERGE-created node starts with: just the merge key. -/
def baseProps (idField : String) (v : Option String) : Props :=
  fun k => if k = idField then v else none

/-- One UNWIND iteration of the node-upsert statement: MERGE keyed by
(label, idField = record value); ON MATCH SET properties plus the updated
timestamp on every matched node, ON CREATE SET properties plus the created
timestamp on a fresh node.  Returns the new store and the created flag. -/
def mergeRecord (τ idField : String) (ks : List String) (t : Nat)
    (st : List DBNode) (r : Record) : List DBNode × Bool :=
  if st.any (nodeMatches τ idField (idOf idField r)) then
    (st.map (fun n => if nodeMatches τ idField (idOf idField r) n then
        { n with props := setProps ks r n.props, updated := some t } else n), false)
  else
    (st ++ [{ label := τ, props := setProps ks r (baseProps idField (idOf idField r)),
              created := some t, updated := none }], true)

/-- Iterating the UNWIND over the record list in order with a fixed SET-key
list, threading the store left to right and accumulating the nodes_created
counter. -/
def runMerge (τ idField : String) (ks : List String) (t : Nat)
    (st : List DBNode) : List Record → List DBNode × Nat
  | [] => (st, 0)
  | r :: rs =>
    let s := mergeRecord τ idField ks t st r
    let rest := runMerge τ idField ks t s.1 rs
    (rest.1, (if s.2 then 1 else 0) + rest.2)

/-- upsert_chunk_records_with_tx (loader.py): a single batched UNWIND-MERGE
statement whose SET clause covers the union of the batch's keys, executed over
the record list.  Returns the final store and the nodes_created counter. -/
def upsert_chunk_records_with_tx (τ : String) (records : List Record)
    (idField : String) (t : Nat) (st : List DBNode) : List DBNode × Nat :=
  runMerge τ idField (allKeys records) t st records

/-- Shape of the one Cypher statement built by upsert_chunk_records_with_tx. -/
structure NodeUpsertStmt where
  node_type : String
  id_field : String
  set_keys : List String

/-- The statement text is built once per batch from the type, the identifying
field and the collected key union. -/
def buildNodeUpsertStmt (τ : String) (records : List Record) (idField : String) :
    NodeUpsertStmt :=
  { node_type := τ, id_field := idField, set_keys := allKeys records }

/-- Store write counters surfaced to the loader (vars(summary.counters)). -/
structure Counters where
  nodes_created : Nat
deriving DecidableEq

/-- Transactional wrapper of the node batch: the statement is issued exactly
once; when the write fails the transaction is rolled back (store unchanged)
and the error is re-raised to the caller. -/
def upsertChunkRecordsTx (writeOk : Bool) (τ : String) (records : List Record)
    (idField : String) (t : Nat) (st : List DBNode) :
    List NodeUpsertStmt × List DBNode × Except String Counters :=
  let stmt := buildNodeUpsertStmt τ records idField
  if writeOk then
    let out := upsert_chunk_records_with_tx τ records idField t st
    ([stmt], out.1, .ok ⟨out.2⟩)
  else
    ([stmt], st, .error "Error upserting records")

/-- Elementwise counter addition (summary aggregation). -/
def addCounters (a b : Counters) : Counters := ⟨a.nodes_created + b.nodes_created⟩

/-- Summary aggregation of upsert_file_records: the totals dict is seeded from
the keys of summary_list[0] — indexing that raises IndexError when no chunk
was processed — and then summed elementwise. -/
def combineSummaries (l : List Counters) : Except String Counters :=
  match l with
  | [] => .error "IndexError: list index out of range"
  | _ :: _ => .ok (l.foldl addCounters ⟨0⟩)

/-- upsert_file_records (loader.py): upsert every chunk of the file in order,
collect per-chunk summaries, then aggregate them. -/
def upsert_file_records (chunks : List Chunk) (subgraphCol : Option String)
    (idField : String) (t : Nat) (st : List DBNode) :
    Except String (List DBNode × Counters) := do
  let acc ← chunks.foldlM (fun (acc : List DBNode × List Counters) chunk => do
      let out ← generate_chunk_records chunk subgraphCol
      let res := upsert_chunk_records_with_tx out.1 out.2 idField t acc.1
      pure (res.1, acc.2 ++ [⟨res.2⟩])) (st, [])
  let total ← combineSummaries acc.2
  pure (acc.1, total)

/-- Label-and-properties view of the store: the entity set the spec talks
about, with the created/updated stamps (which the statements set separately
from the collected properties) projected away. -/
def dataView (st : List DBNode) : List (String × Props) :=
  st.map (fun n => (n.label, n.props))

/-- Last record of the list whose identifying value is `v` (later UNWIND
iterations overwrite earlier ones). -/
def lastMatch (idField : String) (v : Option String) : List Record → Option Record
  | [] => none
  | r :: rs =>
    match lastMatch idField v rs with
    | some r' => some r'
    | none => if idOf idField r = v then some r else none

/-- Denotation of a batch on a pre-existing entity: overwritten by the last
record with its identifying value, untouched otherwise. -/
def updD (τ idField : String) (ks : List String) (rs : List Record)
    (d : String × Props) : String × Props :=
  if d.1 = τ then
    match lastMatch idField (d.2 idField) rs with
    | some r => (d.1, setProps ks r d.2)
    | none => d
  else d

/-- Denotation of a batch-created entity for a fresh identifying value. -/
def mkNewD (τ idField : String) (ks : List String) (rs : List Record)
    (v : Option String) : String × Props :=
  match lastMatch idField v rs with
  | some r => (τ, setProps ks r (baseProps idField v))
  | none => (τ, baseProps idField v)

/-- Denotation of one matched-merge step on the label-and-properties view. -/
def updOne (τ idField : String) (ks : List String) (r : Record)
    (d : String × Props) : String × Props :=
  if d.1 = τ ∧ d.2 idField = idOf idField r then (d.1, setProps ks r d.2) else d

/-- Identifying values already present in the store under the given label. -/
def presentIds (τ idField : String) (ds : List (String × Props)) : List (Option String) :=
  (ds.filter (fun d => decide (d.1 = τ))).map (fun d => d.2 idField)

/-- First occurrences of identifying values not yet present: the values the
batch creates nodes for, in creation order. -/
def newIdsAux (present : List (Option String)) : List (Option String) → List (Option String)
  | [] => []
  | v :: vs => if v ∈ present then newIdsAux present vs else v :: newIdsAux (v :: present) vs

/-- Edge descriptor produced by generate_chunk_relationships. -/
structure EdgeItem where
  src_label : String
  src_prop : String
  src_match : String
  dst_label : String
  dst_prop : String
  dst_match : String
  handle : String
deriving DecidableEq

/-- Grouping key of the relationship pass: itemgetter(src_label, dst_label,
handle). -/
def edgeKey (e : EdgeItem) : String × String × String :=
  (e.src_label, e.dst_label, e.handle)

/-- Python str.split over one separator character, on character data. -/
def splitOnChar (sep : Char) : List Char → List (List Char)
  | [] => [[]]
  | ch :: rest =>
    let r := splitOnChar sep rest
    if ch = sep then [] :: r
    else
      match r with
      | [] => [[ch]]
      | s :: ss => (ch :: s) :: ss

/-- Python edge.split("."). -/
def splitDot (s : String) : List String := (splitOnChar '.' s.data).map (fun l => ⟨l⟩)

/-- edge.split(".")[0]: the parent entity type encoded in the column name. -/
def parentOf (c : String) : String := (splitDot c).getD 0 ""

/-- edge.split(".")[1]: the parent's identifying property from the suffix. -/
def parentPropOf (c : String) : String := (splitDot c).getD 1 ""

/-- Relationship-encoding columns of a chunk header. -/
def edgeColumnsOf (chunk : Chunk) : List String := chunk.columns.filter hasRelSep

/-- Model-index edge triplet (handle, src, dst) as listed by
get_all_edge_triplets (parser.py). -/
abbrev EdgeTriplet := String × String × String

/-- KeyError message raised by get_edge_handle. -/
def edgeNotFoundMsg (src dst : String) : String :=
  "Edge from " ++ src ++ " to " ++ dst ++ " not found in the model."

/-- get_edge_handle (parser.py): scan the triplets for the first whose (src,
dst) pair matches and return its handle; raise a KeyError otherwise. -/
def get_edge_handle (triplets : List EdgeTriplet) (edgeSrc edgeDst : String) :
    Except String String :=
  match triplets.find? (fun tr => decide (tr.2.1 = edgeSrc) && decide (tr.2.2 = edgeDst)) with
  | some tr => .ok tr.1
  | none => .error (edgeNotFoundMsg edgeSrc edgeDst)

/-- Entity type of a chunk, read from the first row's "type" column. -/
def chunkTypeOf (chunk : Chunk) : String :=
  match chunk.rows with
  | [] => ""
  | r :: _ => rowCell r "type"

/-- Resolved edge handle, defaulting to "" on the (error) branch; theorems only
use it under the hypothesis that the lookup succeeds. -/
def edgeHandleOf (triplets : List EdgeTriplet) (src dst : String) : String :=
  match get_edge_handle triplets src dst with
  | .ok h => h
  | .error _ => ""

/-- Success test for an Except value. -/
def exceptIsOk {ε α : Type} : Except ε α → Bool
  | .ok _ => true
  | .error _ => false

/-- Loop body of generate_chunk_relationships for one relationship column
`parent.prop`: resolve the edge handle for (chunk type, parent) — failing when
the model has no such edge — select the identifier and edge columns (a missing
identifier column is a KeyError), drop rows whose edge value is empty, and
append one descriptor per surviving row. -/
def relColStep (chunk : Chunk) (triplets : List EdgeTriplet) (idField chunkType : String)
    (acc : List EdgeItem) (col : String) : Except String (List EdgeItem) := do
  let handle ← get_edge_handle triplets chunkType (parentOf col)
  if idField ∈ chunk.columns then
    if (chunk.rows.filter (fun r => decide (rowCell r col ≠ ""))).length > 0 then
      pure (acc ++ (chunk.rows.filter (fun r => decide (rowCell r col ≠ ""))).map (fun r =>
        { src_label := chunkType, src_prop := idField, src_match := rowCell r idField,
          dst_label := parentOf col, dst_prop := parentPropOf col,
          dst_match := rowCell r col, handle := handle }))
    else
      pure acc
  else
    Except.error "KeyError: identifier column missing"

/-- generate_chunk_relationships (loader.py): read the chunk type from the
first row (an empty chunk raises at `.iloc[0]`), then fold the per-column step
over every relationship-encoding column of the header. -/
def generate_chunk_relationships (chunk : Chunk) (triplets : List EdgeTriplet)
    (idField : String) : Except String (List EdgeItem) :=
  match chunk.rows with
  | [] => .error "IndexError: index 0 is out of bounds"
  | row0 :: _ =>
    (edgeColumnsOf chunk).foldlM (relColStep chunk triplets idField (rowCell row0 "type")) []

/-- Descriptors generated for one relationship column: one per row with a
non-empty value in that column, carrying the chunk's entity type, the
identifying property and the row's identifier on the source side, the column's
parent prefix/property suffix and the row's column value on the destination
side, and the handle resolved from the model. -/
def edgeItemsForCol (chunk : Chunk) (triplets : List EdgeTriplet)
    (idField chunkType col : String) : List EdgeItem :=
  (chunk.rows.filter (fun r => decide (rowCell r col ≠ ""))).map (fun r =>
    { src_label := chunkType, src_prop := idField, src_match := rowCell r idField,
      dst_label := parentOf col, dst_prop := parentPropOf col,
      dst_match := rowCell r col, handle := edgeHandleOf triplets chunkType (parentOf col) })

/-- Lexicographic view of the (src_label, dst_label, handle) key tuple, the
order by which Python compares the itemgetter tuples during sorted. -/
def keyL (k : String × String × String) : Lex (String × Lex (String × String)) :=
  toLex (k.1, toLex (k.2.1, k.2.2))

/-- Key order used to sort the edge list. -/
def edgeLE (a b : EdgeItem) : Bool := decide (keyL (edgeKey a) ≤ keyL (edgeKey b))

/-- Stable insertion of one element into a sorted list. -/
def insertSorted (a : EdgeItem) : List EdgeItem → List EdgeItem
  | [] => [a]
  | b :: bs => if edgeLE a b then a :: b :: bs else b :: insertSorted a bs

/-- Python sorted(edge_list, key=itemgetter(src_label, dst_label, handle)):
modelled as a stable insertion sort under the same key order. -/
def sortEdges (edges : List EdgeItem) : List EdgeItem :=
  edges.foldr insertSorted []

/-- Key equality used by itertools.groupby. -/
def edgeKeyEq (a b : EdgeItem) : Bool := decide (edgeKey a = edgeKey b)

/-- itertools.groupby: maximal runs of consecutive elements with equal keys. -/
def groupConsec : List EdgeItem → List (List EdgeItem)
  | [] => []
  | a :: rest =>
    match groupConsec rest with
    | [] => [[a]]
    | [] :: gs => [a] :: [] :: gs
    | (b :: g) :: gs => if edgeKeyEq a b then (a :: b :: g) :: gs else [a] :: (b :: g) :: gs

/-- Grouping of the relationship pass: sort by key, then group consecutive
equal keys (the grouped_edges dict of upsert_chunk_relationships_with_tx). -/
def groupedEdges (edges : List EdgeItem) : List (List EdgeItem) :=
  groupConsec (sortEdges edges)

/-- One grouped Cypher statement: labels and handle come from the group key,
the endpoint property names from the group's first element (group[0]), the
parameter list is the whole group. -/
structure RelUpsertOp where
  src_label : String
  dst_label : String
  handle : String
  src_prop : String
  dst_prop : String
  edges : List EdgeItem
deriving DecidableEq

/-- Statement built for one group. -/
def mkRelOp (g : List EdgeItem) : RelUpsertOp :=
  match g with
  | [] => { src_label := "", dst_label := "", handle := "",
            src_prop := "", dst_prop := "", edges := [] }
  | e :: _ => { src_label := e.src_label, dst_label := e.dst_label, handle := e.handle,
                src_prop := e.src_prop, dst_prop := e.dst_prop, edges := g }

/-- The statements issued by the relationship pass: exactly one per group. -/
def relOps (edges : List EdgeItem) : List RelUpsertOp :=
  (groupedEdges edges).map mkRelOp

/-- Stored relationship between node store indices, with the timestamps the
MERGE stamps. -/
structure DBRel where
  src : Nat
  handle : String
  dst : Nat
  created : Option Nat
  updated : Option Nat

/-- Cypher MATCH (x:lbl {p: v}): every store index whose node carries the
label and the property value. -/
def matchIdx (nodes : List DBNode) (lbl p v : String) : List Nat :=
  (List.range nodes.length).filter (fun i =>
    match nodes[i]? with
    | some n => decide (n.label = lbl) && decide (n.props p = some v)
    | none => false)

/-- Pattern test of MERGE (src)-[r:handle]->(dst) against a stored rel. -/
def relMatches (i : Nat) (h : String) (j : Nat) (r : DBRel) : Bool :=
  decide (r.src = i) && decide (r.handle = h) && decide (r.dst = j)

/-- MERGE of one relationship instance: ON MATCH SET r.updated, ON CREATE SET
r.created. -/
def mergeRel (t : Nat) (rels : List DBRel) (i : Nat) (h : String) (j : Nat) : List DBRel :=
  if rels.any (relMatches i h j) then
    rels.map (fun r => if relMatches i h j r then { r with updated := some t } else r)
  else
    rels ++ [{ src := i, handle := h, dst := j, created := some t, updated := none }]

/-- Execute one group's statement: UNWIND the edge parameters, match both
endpoint sets, and MERGE the relationship for every matched pair. -/
def execRelOp (t : Nat) (nodes : List DBNode) (op : RelUpsertOp)
    (rels : List DBRel) : List DBRel :=
  op.edges.foldl (fun rs e =>
    (matchIdx nodes op.src_label op.src_prop e.src_match).foldl (fun rs2 i =>
      (matchIdx nodes op.dst_label op.dst_prop e.dst_match).foldl (fun rs3 j =>
        mergeRel t rs3 i op.handle j) rs2) rs) rels

/-- A merged relationship instance is present with a fresh timestamp: some
stored rel connects source index i to destination index j under the handle,
stamped created (fresh) or updated (pre-existing) at time t. -/
def relGood (t : Nat) (i : Nat) (h : String) (j : Nat) (rels : List DBRel) : Prop :=
  ∃ r ∈ rels, r.src = i ∧ r.handle = h ∧ r.dst = j
    ∧ (r.created = some t ∨ r.updated = some t)

/-- upsert_chunk_relationships_with_tx (loader.py): group the edge list by
(src_label, dst_label, handle), then run one statement per group. -/
def upsert_chunk_relationships_with_tx (t : Nat) (nodes : List DBNode)
    (edgeList : List EdgeItem) (rels : List DBRel) : List RelUpsertOp × List DBRel :=
  let ops := relOps edgeList
  (ops, ops.foldl (fun rs op => execRelOp t nodes op rs) rels)

/-- Fixed retry bound of the per-chunk relationship write. -/
def max_retries : Nat := 3

/-- Retry loop of upsert_file_relationships for one chunk: fuel is the number
of attempts still allowed (max_retries minus retry_count); a failing attempt
with no retries left re-raises the last error.  Returns the outcome and the
number of attempts made.  The zero-fuel base case is unreachable from the
actual entry (retry_count 0, fuel max_retries). -/
def retryLoop (attempt : Nat → Except String Counters) :
    Nat → Nat → Except String Counters × Nat
  | retryCount, 0 => (.error "exhausted", retryCount)
  | retryCount, fuel + 1 =>
    match attempt retryCount with
    | .ok s => (.ok s, retryCount + 1)
    | .error e =>
      if fuel = 0 then (.error e, retryCount + 1)
      else retryLoop attempt (retryCount + 1) fuel

/-- Per-chunk retry of the relationship pass: up to max_retries attempts, the
same full chunk relationship batch re-submitted on each attempt. -/
def upsertChunkRelsWithRetry (run : Nat → List EdgeItem → Except String Counters)
    (chunkRels : List EdgeItem) : Except String Counters × Nat :=
  retryLoop (fun i => run i chunkRels) 0 max_retries

/-- One wipe_database round: MATCH (n) LIMIT batch_size, DETACH DELETE, and
report the deleted count. -/
def wipeRound (batchSize n : Nat) : Nat := min batchSize n

/-- wipe_database loop (loader.py): repeat deletion rounds, accumulating the
deleted count, until a round deletes zero.  Returns (total deleted, number of
rounds executed). -/
def wipeLoop (batchSize : Nat) (n : Nat) : Nat × Nat :=
  if h : min batchSize n = 0 then (0, 1)
  else
    let rest := wipeLoop batchSize (n - min batchSize n)
    (min batchSize n + rest.1, rest.2 + 1)
termination_by n
decreasing_by omega

/-- wipe_database (loader.py) on a store with n entities. -/
def wipe_database (n batchSize : Nat) : Nat × Nat := wipeLoop batchSize n

/-- Attempt oracle used to exercise the retry bound: the first two attempts
fail, the third succeeds. -/
def c7oracle : Nat → List EdgeItem → Except String Counters :=
  fun i _ => if i < 2 then .error "deadlock" else .ok ⟨0⟩

/-- Chunk with two relationship columns that share the parent prefix "p" but
carry different property suffixes. -/
def c4chunk : Chunk :=
  ⟨["type", "guid", "p.guid", "p.alt"],
   [[("type", "s"), ("guid", "g1"), ("p.guid", "pg"), ("p.alt", "pa")]]⟩

/-- Model with a single declared edge from "s" to "p". -/
def c4triplets : List EdgeTriplet := [("of_p", "s", "p")]

/-- Descriptor generated from column "p.guid" of c4chunk. -/
def c4item1 : EdgeItem :=
  { src_label := "s", src_prop := "guid", src_match := "g1",
    dst_label := "p", dst_prop := "guid", dst_match := "pg", handle := "of_p" }

/-- Descriptor generated from column "p.alt" of c4chunk: same grouping key as
c4item1 but a different destination property. -/
def c4item2 : EdgeItem :=
  { src_label := "s", src_prop := "guid", src_match := "g1",
    dst_label := "p", dst_prop := "alt", dst_match := "pa", handle := "of_p" }

/-- Chunk whose relationship columns have pairwise distinct parent prefixes. -/
def c4wchunk : Chunk :=
  ⟨["type", "guid", "p.guid", "q.guid"],
   [[("type", "s"), ("guid", "g1"), ("p.guid", "pv"), ("q.guid", "qv")]]⟩

/-- Model declaring one edge for each of the two parents of c4wchunk. -/
def c4wtriplets : List EdgeTriplet := [("of_p", "s", "p"), ("of_q", "s", "q")]

/-- Descriptor generated from column "p.guid" of c4wchunk. -/
def c4witem1 : EdgeItem :=
  { src_label := "s", src_prop := "guid", src_match := "g1",
    dst_label := "p", dst_prop := "guid", dst_match := "pv", handle := "of_p" }

/-- Descriptor generated from column "q.guid" of c4wchunk. -/
def c4witem2 : EdgeItem :=
  { src_label := "s", src_prop := "guid", src_match := "g1",
    dst_label := "q", dst_prop := "guid", dst_match := "qv", handle := "of_q" }

/-- Chunk with a single relationship column, used to witness the amended C4
at a concrete group. -/
def c4wchunk2 : Chunk :=
  ⟨["type", "guid", "p.guid"], [[("type", "s"), ("guid", "g1"), ("p.guid", "pv")]]⟩

/-- Descriptor generated from c4wchunk2's single relationship column. -/
def c4witem3 : EdgeItem :=
  { src_label := "s", src_prop := "guid", src_match := "g1",
    dst_label := "p", dst_prop := "guid", dst_match := "pv", handle := "of_p" }

theorem wipeLoop_zero (b : Nat) : wipeLoop b 0 = (0, 1) := by
  unfold wipeLoop
  simp

theorem wipeLoop_total (b : Nat) (hb : 0 < b) : ∀ n, (wipeLoop b n).1 = n := by
  intro n
  induction n using Nat.strong_induction_on with
  | _ n ih =>
    unfold wipeLoop
    split
    · next h => simp; omega
    · next h =>
      have hrec := ih (n - min b n) (by omega)
      simp only []
      omega

theorem wipeLoop_rounds (b : Nat) (hb : 0 < b) :
    ∀ n, (wipeLoop b n).2 = if n = 0 then 1 else (n + b - 1) / b + 1 := by
  intro n
  induction n using Nat.strong_induction_on with
  | _ n ih =>
    by_cases hn : n = 0
    · subst hn
      simp [wipeLoop_zero]
    · unfold wipeLoop
      split
      · next h => omega
      · next h =>
        simp only [if_neg hn]
        by_cases hle : n ≤ b
        · have hmin : min b n = n := by omega
          rw [hmin]
          simp [wipeLoop_zero]
          have : (n + b - 1) / b = 1 := by
            apply Nat.div_eq_of_lt_le <;> omega
          omega
        · have hmin : min b n = b := by omega
          rw [hmin]
          have hrec := ih (n - b) (by omega)
          rw [hrec, if_neg (by omega : ¬ n - b = 0)]
          have h1 : n - b + b - 1 = n - 1 := by omega
          have h2 : n + b - 1 = (n - 1) + b := by omega
          rw [h1, h2, Nat.add_div_right _ hb]

end MEVAL

namespace MEVAL

/-- C10: on a file whose chunk sequence is empty, upsert_file_records raises
the IndexError from indexing summary_list[0] during aggregation, instead of
returning an all-zero summary, even though no write was attempted. -/
theorem c10_empty_file_indexerror (subgraphCol : Option String) (idField : String)
    (t : Nat) (st : List DBNode) :
    upsert_file_records [] subgraphCol idField t st
      = .error "IndexError: list index out of range" := rfl

/-- C9 as stated is false on the code: with N = 2 entities and batch_size = 1
(so N > batch_size), the loop executes 3 rounds — two deleting rounds plus the
final round that deletes zero — not ceil(2/1) = 2 rounds; the accumulated
total 2 is returned. -/
theorem c9_counterexample :
    1 < 2 ∧ (wipe_database 2 1).1 = 2 ∧ (wipe_database 2 1).2 = 3
      ∧ (2 + 1 - 1) / 1 = 2 ∧ (wipe_database 2 1).2 ≠ (2 + 1 - 1) / 1 := by
  have h : wipe_database 2 1 = (2, 3) := by
    unfold wipe_database
    unfold wipeLoop
    norm_num
    unfold wipeLoop
    norm_num
    unfold wipeLoop
    norm_num
  refine ⟨by norm_num, by rw [h], by rw [h], by norm_num, by rw [h]; norm_num⟩

/-- C9 amended: for 0 < batch_size, wipe_database on an empty store returns 0
after exactly one round, and on N entities returns N after
ceil(N/batch_size) deleting rounds plus one final round that deletes zero,
i.e. ceil(N/batch_size) + 1 rounds in total (the claim's count of
ceil(N/batch_size) omits the terminating zero round). -/
theorem c9_amended_wipe (n b : Nat) (hb : 0 < b) :
    (wipe_database n b).1 = n
    ∧ (wipe_database n b).2 = if n = 0 then 1 else (n + b - 1) / b + 1 := by
  exact ⟨wipeLoop_total b hb n, wipeLoop_rounds b hb n⟩

/-- Witness for the amended C9 at n = 5, b = 2: total 5, rounds 4. -/
theorem c9_witness :
    0 < 2 ∧ (wipe_database 5 2).1 = 5
      ∧ (wipe_database 5 2).2 = if (5 : Nat) = 0 then 1 else (5 + 2 - 1) / 2 + 1 :=
  ⟨by decide, (c9_amended_wipe 5 2 (by decide)).1, (c9_amended_wipe 5 2 (by decide)).2⟩

/-- C7: the per-chunk relationship write is attempted at most 3 times, the
whole chunk re-submitted each attempt; a first/second/third-attempt success
ends the retries with that attempt's summary (no fourth attempt), and three
failures propagate the last error. -/
theorem c7_retry_bound (run : Nat → List EdgeItem → Except String Counters)
    (chunkRels : List EdgeItem) :
    (upsertChunkRelsWithRetry run chunkRels).2 ≤ 3
    ∧ (∀ s, run 0 chunkRels = .ok s →
        upsertChunkRelsWithRetry run chunkRels = (.ok s, 1))
    ∧ (∀ e0 s, run 0 chunkRels = .error e0 → run 1 chunkRels = .ok s →
        upsertChunkRelsWithRetry run chunkRels = (.ok s, 2))
    ∧ (∀ e0 e1 s, run 0 chunkRels = .error e0 → run 1 chunkRels = .error e1 →
        run 2 chunkRels = .ok s →
        upsertChunkRelsWithRetry run chunkRels = (.ok s, 3))
    ∧ (∀ e0 e1 e2, run 0 chunkRels = .error e0 → run 1 chunkRels = .error e1 →
        run 2 chunkRels = .error e2 →
        upsertChunkRelsWithRetry run chunkRels = (.error e2, 3)) := by
  unfold upsertChunkRelsWithRetry max_retries
  refine ⟨?_, ?_, ?_, ?_, ?_⟩
  · cases h0 : run 0 chunkRels with
    | ok s => simp [retryLoop, h0]
    | error e0 =>
      cases h1 : run 1 chunkRels with
      | ok s => simp [retryLoop, h0, h1]
      | error e1 =>
        cases h2 : run 2 chunkRels with
        | ok s => simp [retryLoop, h0, h1, h2]
        | error e2 => simp [retryLoop, h0, h1, h2]
  · intro s h0
    simp [retryLoop, h0]
  · intro e0 s h0 h1
    simp [retryLoop, h0, h1]
  · intro e0 e1 s h0 h1 h2
    simp [retryLoop, h0, h1, h2]
  · intro e0 e1 e2 h0 h1 h2
    simp [retryLoop, h0, h1, h2]

/-- Witness for C7: an oracle failing twice then succeeding returns the
third attempt's summary after exactly 3 attempts. -/
theorem c7_witness : upsertChunkRelsWithRetry c7oracle [] = (.ok ⟨0⟩, 3) :=
  (c7_retry_bound c7oracle []).2.2.2.1 "deadlock" "deadlock" ⟨0⟩ rfl rfl rfl

theorem exceptBindOk {ε α β : Type} (a : α) (k : α → Except ε β) :
    (Except.ok a : Except ε α) >>= k = k a := rfl

theorem exceptBindError {ε α β : Type} (e : ε) (k : α → Except ε β) :
    (Except.error e : Except ε α) >>= k = .error e := rfl

theorem exceptPureOk {ε α : Type} (a : α) : (pure a : Except ε α) = .ok a := rfl

theorem get_edge_handle_ok_form (triplets : List EdgeTriplet) (s d : String)
    (h : exceptIsOk (get_edge_handle triplets s d) = true) :
    get_edge_handle triplets s d = .ok (edgeHandleOf triplets s d) := by
  unfold edgeHandleOf
  cases heq : get_edge_handle triplets s d with
  | ok v => rfl
  | error e => rw [heq] at h; simp [exceptIsOk] at h

theorem get_edge_handle_error_form (triplets : List EdgeTriplet) (s d : String)
    (h : exceptIsOk (get_edge_handle triplets s d) = false) :
    get_edge_handle triplets s d = .error (edgeNotFoundMsg s d) := by
  unfold get_edge_handle at h ⊢
  cases heq : List.find? (fun tr => decide (tr.2.1 = s) && decide (tr.2.2 = d)) triplets with
  | some tr => rw [heq] at h; simp [exceptIsOk] at h
  | none => rfl

theorem relColStep_ok (chunk : Chunk) (triplets : List EdgeTriplet)
    (idField τ : String) (hid : idField ∈ chunk.columns) (acc : List EdgeItem)
    (col : String) (hc : exceptIsOk (get_edge_handle triplets τ (parentOf col)) = true) :
    relColStep chunk triplets idField τ acc col
      = .ok (acc ++ edgeItemsForCol chunk triplets idField τ col) := by
  have heq := get_edge_handle_ok_form triplets τ (parentOf col) hc
  unfold relColStep
  rw [heq, exceptBindOk, if_pos hid]
  rcases Nat.eq_zero_or_pos (chunk.rows.filter (fun r => decide (rowCell r col ≠ ""))).length
    with hz | hp
  · rw [List.length_eq_zero] at hz
    unfold edgeItemsForCol
    rw [hz]
    simp [exceptPureOk]
  · rw [if_pos hp]
    unfold edgeItemsForCol
    rfl

theorem relFold_ok (chunk : Chunk) (triplets : List EdgeTriplet) (idField τ : String)
    (hid : idField ∈ chunk.columns) :
    ∀ (cols : List String) (acc : List EdgeItem),
      (∀ c ∈ cols, exceptIsOk (get_edge_handle triplets τ (parentOf c)) = true) →
      cols.foldlM (relColStep chunk triplets idField τ) acc
        = .ok (acc ++ cols.flatMap (edgeItemsForCol chunk triplets idField τ)) := by
  intro cols
  induction cols with
  | nil => intro acc _; simp [exceptPureOk]
  | cons c cs ih =>
    intro acc hall
    rw [List.foldlM_cons, relColStep_ok chunk triplets idField τ hid acc c
      (hall c (List.mem_cons_self c cs)), exceptBindOk]
    rw [ih _ (fun x hx => hall x (List.mem_cons_of_mem c hx))]
    simp [List.append_assoc]

theorem relFold_error (chunk : Chunk) (triplets : List EdgeTriplet) (idField τ : String)
    (hid : idField ∈ chunk.columns) :
    ∀ (cols : List String) (acc : List EdgeItem),
      (∃ c ∈ cols, exceptIsOk (get_edge_handle triplets τ (parentOf c)) = false) →
      ∃ parent, cols.foldlM (relColStep chunk triplets idField τ) acc
        = .error (edgeNotFoundMsg τ parent) := by
  intro cols
  induction cols with
  | nil => intro acc h; simp at h
  | cons c cs ih =>
    intro acc h
    cases hc : exceptIsOk (get_edge_handle triplets τ (parentOf c)) with
    | false =>
      refine ⟨parentOf c, ?_⟩
      have heq := get_edge_handle_error_form triplets τ (parentOf c) hc
      rw [List.foldlM_cons]
      unfold relColStep
      rw [heq]
      simp only [exceptBindError]
    | true =>
      rw [List.foldlM_cons, relColStep_ok chunk triplets idField τ hid acc c hc,
        exceptBindOk]
      apply ih
      rcases h with ⟨x, hx, hfx⟩
      rcases List.mem_cons.mp hx with rfl | hx'
      · rw [hc] at hfx; exact absurd hfx (by simp)
      · exact ⟨x, hx', hfx⟩

/-- C5: for a row chunk and each relationship-encoding column of its header
(with resolvable edge handles and the identifier column present), the
extractor emits exactly one descriptor per row with a non-empty value in that
column — source side (chunk type, identifying property, row identifier),
destination side (column's parent prefix, column's property suffix, row's
column value), and the resolved handle — and a chunk with zero
relationship-encoding columns yields the empty list without error. -/
theorem c5_relationship_extraction (chunk : Chunk) (triplets : List EdgeTriplet)
    (idField : String) (row0 : Row) (rest : List Row)
    (hrows : chunk.rows = row0 :: rest) (hid : idField ∈ chunk.columns)
    (hlook : ∀ c ∈ edgeColumnsOf chunk,
        exceptIsOk (get_edge_handle triplets (chunkTypeOf chunk) (parentOf c)) = true) :
    generate_chunk_relationships chunk triplets idField
      = .ok ((edgeColumnsOf chunk).flatMap
          (edgeItemsForCol chunk triplets idField (chunkTypeOf chunk)))
    ∧ (edgeColumnsOf chunk = [] →
        generate_chunk_relationships chunk triplets idField = .ok []) := by
  obtain ⟨cols, rows⟩ := chunk
  dsimp only at hrows
  subst hrows
  have hτ : chunkTypeOf ⟨cols, row0 :: rest⟩ = rowCell row0 "type" := rfl
  rw [hτ] at hlook ⊢
  have hmain : generate_chunk_relationships ⟨cols, row0 :: rest⟩ triplets idField
      = .ok ((edgeColumnsOf ⟨cols, row0 :: rest⟩).flatMap
          (edgeItemsForCol ⟨cols, row0 :: rest⟩ triplets idField (rowCell row0 "type"))) := by
    unfold generate_chunk_relationships
    dsimp only
    rw [relFold_ok _ triplets idField _ hid _ [] hlook]
    simp
  exact ⟨hmain, fun hz => by rw [hmain, hz]; simp⟩

/-- Witness for C5 on a concrete chunk: two rows, one with an empty
relationship value; exactly one descriptor is produced. -/
theorem c5_witness :
    generate_chunk_relationships
        ⟨["type", "guid", "p.guid"],
         [[("type", "s"), ("guid", "g1"), ("p.guid", "x")],
          [("type", "s"), ("guid", "g2"), ("p.guid", "")]]⟩
        [("of_p", "s", "p")] "guid"
      = .ok ((edgeColumnsOf ⟨["type", "guid", "p.guid"],
          [[("type", "s"), ("guid", "g1"), ("p.guid", "x")],
           [("type", "s"), ("guid", "g2"), ("p.guid", "")]]⟩).flatMap
          (edgeItemsForCol ⟨["type", "guid", "p.guid"],
            [[("type", "s"), ("guid", "g1"), ("p.guid", "x")],
             [("type", "s"), ("guid", "g2"), ("p.guid", "")]]⟩
            [("of_p", "s", "p")] "guid"
            (chunkTypeOf ⟨["type", "guid", "p.guid"],
              [[("type", "s"), ("guid", "g1"), ("p.guid", "x")],
               [("type", "s"), ("guid", "g2"), ("p.guid", "")]]⟩))) :=
  (c5_relationship_extraction _ _ _ _ _ rfl (by decide) (by decide)).1

/-- C6: the record extractor returns the entity type read from the first row's
reserved type column together with one record per row whose keys are exactly
the retained columns (all columns except the type column, the optional
subgraph column, and dotted relationship columns), where an absent cell reads
as the empty string and a present cell as its text. -/
theorem c6_record_extraction (chunk : Chunk) (subgraphCol : Option String)
    (row0 : Row) (rest : List Row) (hrows : chunk.rows = row0 :: rest) :
    generate_chunk_records chunk subgraphCol
      = .ok (rowCell row0 "type",
          chunk.rows.map (fun r =>
            (columnsToKeep chunk.columns subgraphCol).map (fun c => (c, rowCell r c))))
    ∧ (∀ c, c ∈ columnsToKeep chunk.columns subgraphCol ↔
         (c ∈ chunk.columns ∧ subgraphCol ≠ some c ∧ c ≠ "type" ∧ hasRelSep c = false))
    ∧ (∀ r : Row, ∀ c : String,
         recKeys ((columnsToKeep chunk.columns subgraphCol).map (fun c => (c, rowCell r c)))
           = columnsToKeep chunk.columns subgraphCol
         ∧ (alookup c r = none → rowCell r c = "")
         ∧ (∀ v, alookup c r = some v → rowCell r c = v)) := by
  obtain ⟨cols, rows⟩ := chunk
  dsimp only at hrows
  subst hrows
  refine ⟨rfl, ?_, ?_⟩
  · intro c
    unfold columnsToKeep
    rw [List.mem_filter]
    simp only [Bool.and_eq_true, decide_eq_true_eq, Bool.not_eq_true']
    tauto
  · intro r c
    refine ⟨?_, ?_, ?_⟩
    · unfold recKeys
      rw [List.map_map]
      exact (List.map_congr_left fun a _ => rfl).trans (List.map_id _)
    · intro h; unfold rowCell; rw [h]; rfl
    · intro v h; unfold rowCell; rw [h]; rfl

/-- Witness for C6 on a concrete chunk with type, identifier, relationship and
plain columns. -/
theorem c6_witness :
    generate_chunk_records
        ⟨["type", "guid", "p.guid", "name"],
         [[("type", "s"), ("guid", "g1"), ("p.guid", "x"), ("name", "n")]]⟩ none
      = .ok (rowCell [("type", "s"), ("guid", "g1"), ("p.guid", "x"), ("name", "n")] "type",
          ([[("type", "s"), ("guid", "g1"), ("p.guid", "x"), ("name", "n")]] : List Row).map
            (fun r => (columnsToKeep ["type", "guid", "p.guid", "name"] none).map
              (fun c => (c, rowCell r c)))) :=
  (c6_record_extraction
    ⟨["type", "guid", "p.guid", "name"],
     [[("type", "s"), ("guid", "g1"), ("p.guid", "x"), ("name", "n")]]⟩
    none [("type", "s"), ("guid", "g1"), ("p.guid", "x"), ("name", "n")] [] rfl).1

/-- C8: when some relationship-encoding column's (chunk type, parent) pair has
no declared relationship in the model, relationship extraction fails with the
not-found lookup error instead of returning a descriptor list. -/
theorem c8_lookup_error (chunk : Chunk) (triplets : List EdgeTriplet)
    (idField : String) (row0 : Row) (rest : List Row)
    (hrows : chunk.rows = row0 :: rest) (hid : idField ∈ chunk.columns)
    (hfail : ∃ c ∈ edgeColumnsOf chunk,
        exceptIsOk (get_edge_handle triplets (chunkTypeOf chunk) (parentOf c)) = false) :
    ∃ parent, generate_chunk_relationships chunk triplets idField
        = .error (edgeNotFoundMsg (chunkTypeOf chunk) parent) := by
  obtain ⟨cols, rows⟩ := chunk
  dsimp only at hrows
  subst hrows
  have hτ : chunkTypeOf ⟨cols, row0 :: rest⟩ = rowCell row0 "type" := rfl
  rw [hτ] at hfail ⊢
  unfold generate_chunk_relationships
  exact relFold_error _ triplets idField _ hid _ [] hfail

/-- Witness for C8: a model with no declared edges makes extraction fail. -/
theorem c8_witness :
    ∃ parent, generate_chunk_relationships
        ⟨["type", "guid", "p.guid"], [[("type", "s"), ("guid", "g1"), ("p.guid", "x")]]⟩
        [] "guid"
      = .error (edgeNotFoundMsg
          (chunkTypeOf ⟨["type", "guid", "p.guid"],
            [[("type", "s"), ("guid", "g1"), ("p.guid", "x")]]⟩) parent) :=
  c8_lookup_error _ [] "guid" _ [] rfl (by decide) (by decide)

theorem keyL_inj {k k' : String × String × String} (h : keyL k = keyL k') : k = k' := by
  unfold keyL at h
  have h' := toLex.injective h
  rcases k with ⟨a, b, c⟩
  rcases k' with ⟨a', b', c'⟩
  simp only [Prod.mk.injEq] at h'
  obtain ⟨h1, h2⟩ := h'
  have h2' := toLex.injective h2
  simp only [Prod.mk.injEq] at h2'
  simp [h1, h2'.1, h2'.2]

theorem edgeLE_iff (a b : EdgeItem) :
    edgeLE a b = true ↔ keyL (edgeKey a) ≤ keyL (edgeKey b) := by
  simp [edgeLE]

theorem edgeLE_total (a b : EdgeItem) : edgeLE a b = true ∨ edgeLE b a = true := by
  rcases le_total (keyL (edgeKey a)) (keyL (edgeKey b)) with h | h
  · exact Or.inl ((edgeLE_iff a b).mpr h)
  · exact Or.inr ((edgeLE_iff b a).mpr h)

theorem edgeLE_trans {a b c : EdgeItem} (h1 : edgeLE a b = true) (h2 : edgeLE b c = true) :
    edgeLE a c = true :=
  (edgeLE_iff a c).mpr (le_trans ((edgeLE_iff a b).mp h1) ((edgeLE_iff b c).mp h2))

theorem edgeLE_antisymm_key {a b : EdgeItem} (h1 : edgeLE a b = true)
    (h2 : edgeLE b a = true) : edgeKey a = edgeKey b :=
  keyL_inj (le_antisymm ((edgeLE_iff a b).mp h1) ((edgeLE_iff b a).mp h2))

theorem insertSorted_perm (a : EdgeItem) (l : List EdgeItem) :
    (insertSorted a l).Perm (a :: l) := by
  induction l with
  | nil => exact List.Perm.refl _
  | cons b bs ih =>
    unfold insertSorted
    split
    · exact List.Perm.refl _
    · exact (ih.cons b).trans (List.Perm.swap a b bs)

theorem mem_insertSorted {x a : EdgeItem} {l : List EdgeItem} :
    x ∈ insertSorted a l ↔ x = a ∨ x ∈ l := by
  rw [(insertSorted_perm a l).mem_iff, List.mem_cons]

theorem pairwise_insertSorted (a : EdgeItem) (l : List EdgeItem)
    (h : List.Pairwise (fun u v => edgeLE u v = true) l) :
    List.Pairwise (fun u v => edgeLE u v = true) (insertSorted a l) := by
  induction l with
  | nil => simp [insertSorted]
  | cons b bs ih =>
    rw [List.pairwise_cons] at h
    obtain ⟨hb, hbs⟩ := h
    unfold insertSorted
    by_cases hab : edgeLE a b = true
    · rw [if_pos hab]
      rw [List.pairwise_cons]
      constructor
      · intro y hy
        rcases List.mem_cons.mp hy with rfl | hy'
        · exact hab
        · exact edgeLE_trans hab (hb y hy')
      · exact List.pairwise_cons.mpr ⟨hb, hbs⟩
    · rw [if_neg hab]
      rw [List.pairwise_cons]
      constructor
      · intro y hy
        rcases mem_insertSorted.mp hy with rfl | hy'
        · rcases edgeLE_total y b with h' | h'
          · exact absurd h' hab
          · exact h'
        · exact hb y hy'
      · exact ih hbs

theorem sortEdges_perm (l : List EdgeItem) : (sortEdges l).Perm l := by
  induction l with
  | nil => exact List.Perm.refl _
  | cons a as ih => exact (insertSorted_perm a (sortEdges as)).trans (ih.cons a)

theorem sortEdges_sorted (l : List EdgeItem) :
    List.Pairwise (fun u v => edgeLE u v = true) (sortEdges l) := by
  induction l with
  | nil => simp [sortEdges]
  | cons a as ih => exact pairwise_insertSorted a (sortEdges as) ih

theorem groupConsec_flatten : ∀ l : List EdgeItem, (groupConsec l).flatten = l := by
  intro l
  induction l with
  | nil => rfl
  | cons a rest ih =>
    unfold groupConsec
    cases hG : groupConsec rest with
    | nil =>
      rw [hG] at ih
      simp only [List.flatten_nil] at ih
      simp [← ih]
    | cons g0 gs =>
      rw [hG] at ih
      cases g0 with
      | nil =>
        simp only [List.flatten_cons, List.nil_append] at ih
        simp [List.flatten_cons, ih]
      | cons b g' =>
        dsimp only
        by_cases hab : edgeKeyEq a b = true
        · rw [if_pos hab]
          simp only [List.flatten_cons] at ih ⊢
          simp [List.cons_append, ih]
        · rw [if_neg hab]
          simp only [List.flatten_cons] at ih ⊢
          simp [ih]

theorem groupConsec_ne_nil : ∀ l : List EdgeItem, ∀ g ∈ groupConsec l, g ≠ [] := by
  intro l
  induction l with
  | nil => intro g hg; simp [groupConsec] at hg
  | cons a rest ih =>
    intro g hg
    unfold groupConsec at hg
    cases hG : groupConsec rest with
    | nil =>
      rw [hG] at hg
      rw [List.mem_singleton] at hg
      subst hg
      simp
    | cons g0 gs =>
      rw [hG] at hg
      cases g0 with
      | nil =>
        rcases List.mem_cons.mp hg with rfl | hg'
        · simp
        · rcases List.mem_cons.mp hg' with rfl | hg''
          · exact absurd rfl (ih [] (by rw [hG]; exact List.mem_cons_self _ _))
          · exact ih g (by rw [hG]; exact List.mem_cons_of_mem _ hg'')
      | cons b g' =>
        dsimp only at hg
        by_cases hab : edgeKeyEq a b = true
        · rw [if_pos hab] at hg
          rcases List.mem_cons.mp hg with rfl | hg'
          · simp
          · exact ih g (by rw [hG]; exact List.mem_cons_of_mem _ hg')
        · rw [if_neg hab] at hg
          rcases List.mem_cons.mp hg with rfl | hg'
          · simp
          · exact ih g (by rw [hG]; exact hg')

theorem groupConsec_key_aux :
    ∀ l : List EdgeItem, ∀ g ∈ groupConsec l, ∀ x ∈ g, ∀ y ∈ g, edgeKey x = edgeKey y := by
  intro l
  induction l with
  | nil => intro g hg; simp [groupConsec] at hg
  | cons a rest ih =>
    intro g hg x hx y hy
    unfold groupConsec at hg
    cases hG : groupConsec rest with
    | nil =>
      rw [hG] at hg
      rw [List.mem_singleton] at hg
      subst hg
      rw [List.mem_singleton] at hx hy
      rw [hx, hy]
    | cons g0 gs =>
      rw [hG] at hg
      cases g0 with
      | nil =>
        rcases List.mem_cons.mp hg with rfl | hg'
        · rw [List.mem_singleton] at hx hy
          rw [hx, hy]
        · rcases List.mem_cons.mp hg' with rfl | hg''
          · simp at hx
          · exact ih g (by rw [hG]; exact List.mem_cons_of_mem _ hg'') x hx y hy
      | cons b g' =>
        dsimp only at hg
        by_cases hab : edgeKeyEq a b = true
        · rw [if_pos hab] at hg
          rcases List.mem_cons.mp hg with rfl | hg'
          · have hkab : edgeKey a = edgeKey b := by
              simpa [edgeKeyEq] using hab
            have hball : ∀ z ∈ a :: b :: g', edgeKey z = edgeKey b := by
              intro z hz
              rcases List.mem_cons.mp hz with rfl | hz'
              · exact hkab
              · exact ih (b :: g') (by rw [hG]; exact List.mem_cons_self _ _) z hz' b
                  (List.mem_cons_self _ _)
            rw [hball x hx, hball y hy]
          · exact ih g (by rw [hG]; exact List.mem_cons_of_mem _ hg') x hx y hy
        · rw [if_neg hab] at hg
          rcases List.mem_cons.mp hg with rfl | hg'
          · rw [List.mem_singleton] at hx hy
            rw [hx, hy]
          · exact ih g (by rw [hG]; exact hg') x hx y hy

theorem groupConsec_pairwise_ne :
    ∀ l : List EdgeItem, List.Pairwise (fun u v => edgeLE u v = true) l →
      List.Pairwise (fun g h => ∀ x ∈ g, ∀ y ∈ h, edgeKey x ≠ edgeKey y) (groupConsec l) := by
  intro l
  induction l with
  | nil => intro _; simp [groupConsec]
  | cons a rest ih =>
    intro hp
    rw [List.pairwise_cons] at hp
    obtain ⟨ha, hrest⟩ := hp
    have IH := ih hrest
    unfold groupConsec
    cases hG : groupConsec rest with
    | nil => simp
    | cons g0 gs =>
      rw [hG] at IH
      cases g0 with
      | nil =>
        exact absurd rfl (groupConsec_ne_nil rest []
          (by rw [hG]; exact List.mem_cons_self _ _))
      | cons b g' =>
        dsimp only
        have hb_rest : b ∈ rest := by
          rw [← groupConsec_flatten rest, hG]
          exact List.mem_flatten.mpr ⟨b :: g', List.mem_cons_self _ _, List.mem_cons_self _ _⟩
        have hsplit : rest = (b :: g') ++ gs.flatten := by
          rw [← groupConsec_flatten rest, hG]
          rfl
        rw [List.pairwise_cons] at IH
        obtain ⟨IH1, IH2⟩ := IH
        by_cases hab : edgeKeyEq a b = true
        · rw [if_pos hab]
          rw [List.pairwise_cons]
          refine ⟨?_, IH2⟩
          intro h hh x hx y hy
          have hkab : edgeKey a = edgeKey b := by simpa [edgeKeyEq] using hab
          rcases List.mem_cons.mp hx with rfl | hx'
          · rw [hkab]
            exact IH1 h hh b (List.mem_cons_self _ _) y hy
          · exact IH1 h hh x hx' y hy
        · rw [if_neg hab]
          have hkab : edgeKey a ≠ edgeKey b := by simpa [edgeKeyEq] using hab
          rw [List.pairwise_cons]
          constructor
          · intro h hh x hx y hy
            rw [List.mem_singleton] at hx
            subst hx
            rcases List.mem_cons.mp hh with rfl | hh'
            · have hyb : edgeKey y = edgeKey b :=
                groupConsec_key_aux rest (b :: g')
                  (by rw [hG]; exact List.mem_cons_self _ _) y hy b (List.mem_cons_self _ _)
              intro hcon
              exact hkab (hcon.trans hyb)
            · intro hcon
              have hy_flat : y ∈ gs.flatten := List.mem_flatten.mpr ⟨h, hh', hy⟩
              have hy_rest : y ∈ rest := by
                rw [hsplit]
                exact List.mem_append_right _ hy_flat
              have hle_ab : edgeLE x b = true := ha b hb_rest
              have hle_by : edgeLE b y = true := by
                rw [hsplit] at hrest
                exact (List.pairwise_append.mp hrest).2.2 b (List.mem_cons_self _ _) y hy_flat
              have h1 : keyL (edgeKey x) ≤ keyL (edgeKey b) := (edgeLE_iff _ _).mp hle_ab
              have h2 : keyL (edgeKey b) ≤ keyL (edgeKey y) := (edgeLE_iff _ _).mp hle_by
              have h3 : keyL (edgeKey x) = keyL (edgeKey b) :=
                le_antisymm h1 (by rw [← hcon] at h2; exact h2)
              exact hkab (keyL_inj h3)
          · exact List.pairwise_cons.mpr ⟨IH1, IH2⟩

theorem foldl_rel_keep {β : Type} (f : List DBRel → β → List DBRel) (P : List DBRel → Prop)
    (hf : ∀ s x, P s → P (f s x)) : ∀ (l : List β) (s : List DBRel), P s → P (List.foldl f s l) := by
  intro l
  induction l with
  | nil => intro s hs; exact hs
  | cons x xs ih => intro s hs; exact ih (f s x) (hf s x hs)

theorem relMatches_iff (i : Nat) (h : String) (j : Nat) (r : DBRel) :
    relMatches i h j r = true ↔ (r.src = i ∧ r.handle = h ∧ r.dst = j) := by
  simp [relMatches, and_assoc]

theorem mergeRel_good (t : Nat) (rels : List DBRel) (i : Nat) (h : String) (j : Nat) :
    relGood t i h j (mergeRel t rels i h j) := by
  unfold mergeRel
  by_cases hany : rels.any (relMatches i h j) = true
  · rw [if_pos hany]
    obtain ⟨r, hr, hm⟩ := List.any_eq_true.mp hany
    refine ⟨{ r with updated := some t }, ?_, ?_⟩
    · have := List.mem_map_of_mem
        (fun r => if relMatches i h j r then { r with updated := some t } else r) hr
      simpa only [hm, if_true] using this
    · obtain ⟨h1, h2, h3⟩ := (relMatches_iff i h j r).mp hm
      exact ⟨h1, h2, h3, Or.inr rfl⟩
  · rw [if_neg hany]
    exact ⟨⟨i, h, j, some t, none⟩, List.mem_append_right _ (List.mem_singleton_self _),
      rfl, rfl, rfl, Or.inl rfl⟩

theorem mergeRel_keep (t : Nat) (rels : List DBRel) (i' : Nat) (h' : String) (j' : Nat)
    {i : Nat} {h : String} {j : Nat} (hg : relGood t i h j rels) :
    relGood t i h j (mergeRel t rels i' h' j') := by
  obtain ⟨r, hr, h1, h2, h3, h4⟩ := hg
  unfold mergeRel
  by_cases hany : rels.any (relMatches i' h' j') = true
  · rw [if_pos hany]
    by_cases hm : relMatches i' h' j' r = true
    · refine ⟨{ r with updated := some t }, ?_, h1, h2, h3, ?_⟩
      · have := List.mem_map_of_mem
          (fun r => if relMatches i' h' j' r then { r with updated := some t } else r) hr
        simpa only [hm, if_true] using this
      · rcases h4 with h4 | h4
        · exact Or.inl h4
        · exact Or.inr rfl
    · refine ⟨r, ?_, h1, h2, h3, h4⟩
      have := List.mem_map_of_mem
        (fun r => if relMatches i' h' j' r then { r with updated := some t } else r) hr
      simpa only [hm, if_false, Bool.false_eq_true] using this
  · rw [if_neg hany]
    exact ⟨r, List.mem_append_left _ hr, h1, h2, h3, h4⟩

theorem edgeStep_good (t : Nat) (hnd : String) (srcs dsts : List Nat) {i j : Nat}
    (hi : i ∈ srcs) (hj : j ∈ dsts) (s : List DBRel) :
    relGood t i hnd j
      (srcs.foldl (fun rs2 i' => dsts.foldl (fun rs3 j' => mergeRel t rs3 i' hnd j') rs2) s) := by
  obtain ⟨s1, s2, hsp⟩ := List.append_of_mem hi
  rw [hsp, List.foldl_append, List.foldl_cons]
  apply foldl_rel_keep _ _
    (fun st x hst => foldl_rel_keep _ _
      (fun st' y hst' => mergeRel_keep t st' x hnd y hst') dsts st hst) s2
  obtain ⟨d1, d2, hdp⟩ := List.append_of_mem hj
  rw [hdp, List.foldl_append, List.foldl_cons]
  apply foldl_rel_keep _ _ (fun st y hst => mergeRel_keep t st i hnd y hst) d2
  exact mergeRel_good t _ i hnd j

theorem execRelOp_good (t : Nat) (nodes : List DBNode) (op : RelUpsertOp) (rels : List DBRel) :
    ∀ e ∈ op.edges, ∀ i ∈ matchIdx nodes op.src_label op.src_prop e.src_match,
      ∀ j ∈ matchIdx nodes op.dst_label op.dst_prop e.dst_match,
      relGood t i op.handle j (execRelOp t nodes op rels) := by
  intro e he i hi j hj
  unfold execRelOp
  obtain ⟨l1, l2, hsplit⟩ := List.append_of_mem he
  rw [hsplit, List.foldl_append, List.foldl_cons]
  apply foldl_rel_keep _ _
    (fun st e' hst => foldl_rel_keep _ _
      (fun st2 x hst2 => foldl_rel_keep _ _
        (fun st3 y hst3 => mergeRel_keep t st3 x op.handle y hst3) _ st2 hst2)
      _ st hst) l2
  exact edgeStep_good t op.handle _ _ hi hj _

/-- C3: the relationship pass partitions the descriptor list into groups keyed
by (src_label, dst_label, handle) — the groups flatten back to a permutation
of the input, every group is non-empty with all members sharing its key, and
distinct groups carry distinct keys, so each descriptor occurrence lies in
exactly one group — and issues exactly one bulk statement per group, matching
sources by (src_label, src_prop = src_match) and destinations by (dst_label,
dst_prop = dst_match) and merging the directed named relationship with a
created/updated timestamp for every matched endpoint pair. -/
theorem c3_relationship_grouping (edges : List EdgeItem) (t : Nat)
    (nodes : List DBNode) (rels : List DBRel) :
    ((groupedEdges edges).flatten).Perm edges
    ∧ (∀ g ∈ groupedEdges edges, g ≠ [] ∧ ∀ x ∈ g, ∀ y ∈ g, edgeKey x = edgeKey y)
    ∧ List.Pairwise (fun g h => ∀ x ∈ g, ∀ y ∈ h, edgeKey x ≠ edgeKey y) (groupedEdges edges)
    ∧ (upsert_chunk_relationships_with_tx t nodes edges rels).1
        = (groupedEdges edges).map mkRelOp
    ∧ (∀ g ∈ groupedEdges edges, ∀ e ∈ g,
        mkRelOp g ∈ (upsert_chunk_relationships_with_tx t nodes edges rels).1
        ∧ (mkRelOp g).src_label = e.src_label ∧ (mkRelOp g).dst_label = e.dst_label
        ∧ (mkRelOp g).handle = e.handle ∧ (mkRelOp g).edges = g)
    ∧ (∀ op : RelUpsertOp, ∀ e ∈ op.edges,
        ∀ i ∈ matchIdx nodes op.src_label op.src_prop e.src_match,
        ∀ j ∈ matchIdx nodes op.dst_label op.dst_prop e.dst_match,
        ∃ r ∈ execRelOp t nodes op rels,
          r.src = i ∧ r.handle = op.handle ∧ r.dst = j
          ∧ (r.created = some t ∨ r.updated = some t)) := by
  refine ⟨?_, ?_, ?_, rfl, ?_, ?_⟩
  · rw [groupedEdges, groupConsec_flatten]
    exact sortEdges_perm edges
  · intro g hg
    exact ⟨groupConsec_ne_nil (sortEdges edges) g hg,
      fun x hx y hy => groupConsec_key_aux (sortEdges edges) g hg x hx y hy⟩
  · exact groupConsec_pairwise_ne (sortEdges edges) (sortEdges_sorted edges)
  · intro g hg e heg
    refine ⟨List.mem_map_of_mem mkRelOp hg, ?_⟩
    cases g with
    | nil => exact absurd rfl (groupConsec_ne_nil (sortEdges edges) _ hg)
    | cons e0 g'' =>
      have hkey : edgeKey e0 = edgeKey e :=
        groupConsec_key_aux (sortEdges edges) _ hg e0 (List.mem_cons_self _ _) e heg
      exact ⟨congrArg (fun k => k.1) hkey, congrArg (fun k => k.2.1) hkey,
        congrArg (fun k => k.2.2) hkey, rfl⟩
  · intro op e he i hi j hj
    exact execRelOp_good t nodes op rels e he i hi j hj

theorem relColStep_mem_inv (chunk : Chunk) (triplets : List EdgeTriplet)
    (idField τ : String) (acc : List EdgeItem) (col : String) (out : List EdgeItem)
    (h : relColStep chunk triplets idField τ acc col = .ok out) :
    ∀ e ∈ out, e ∈ acc ∨ (e.src_prop = idField ∧ e.dst_label = parentOf col
      ∧ e.dst_prop = parentPropOf col) := by
  unfold relColStep at h
  cases hh : get_edge_handle triplets τ (parentOf col) with
  | error msg => rw [hh, exceptBindError] at h; cases h
  | ok hdl =>
    rw [hh, exceptBindOk] at h
    by_cases hid : idField ∈ chunk.columns
    · rw [if_pos hid] at h
      by_cases hpos : (chunk.rows.filter (fun r => decide (rowCell r col ≠ ""))).length > 0
      · rw [if_pos hpos, exceptPureOk] at h
        injection h with h'
        intro e he
        rw [← h'] at he
        rcases List.mem_append.mp he with hin | hmap
        · exact Or.inl hin
        · obtain ⟨r, _, hre⟩ := List.mem_map.mp hmap
          rw [← hre]
          exact Or.inr ⟨rfl, rfl, rfl⟩
      · rw [if_neg hpos, exceptPureOk] at h
        injection h with h'
        intro e he
        rw [← h'] at he
        exact Or.inl he
    · rw [if_neg hid] at h
      cases h

theorem relFold_mem_inv (chunk : Chunk) (triplets : List EdgeTriplet) (idField τ : String) :
    ∀ (cols : List String) (acc out : List EdgeItem),
      cols.foldlM (relColStep chunk triplets idField τ) acc = .ok out →
      ∀ e ∈ out, e ∈ acc ∨ ∃ c ∈ cols, e.src_prop = idField ∧ e.dst_label = parentOf c
        ∧ e.dst_prop = parentPropOf c := by
  intro cols
  induction cols with
  | nil =>
    intro acc out h e he
    simp only [List.foldlM_nil] at h
    rw [exceptPureOk] at h
    injection h with h'
    rw [← h'] at he
    exact Or.inl he
  | cons c cs ih =>
    intro acc out h e he
    rw [List.foldlM_cons] at h
    cases hstep : relColStep chunk triplets idField τ acc c with
    | error m => rw [hstep, exceptBindError] at h; cases h
    | ok acc' =>
      rw [hstep, exceptBindOk] at h
      rcases ih acc' out h e he with hin | ⟨c', hc', hp⟩
      · rcases relColStep_mem_inv chunk triplets idField τ acc c acc' hstep e hin with hin' | hp
        · exact Or.inl hin'
        · exact Or.inr ⟨c, List.mem_cons_self _ _, hp⟩
      · exact Or.inr ⟨c', List.mem_cons_of_mem _ hc', hp⟩

theorem generate_mem_fields (chunk : Chunk) (triplets : List EdgeTriplet)
    (idField : String) (edges : List EdgeItem)
    (h : generate_chunk_relationships chunk triplets idField = .ok edges) :
    ∀ e ∈ edges, e.src_prop = idField ∧ ∃ c ∈ edgeColumnsOf chunk,
      e.dst_label = parentOf c ∧ e.dst_prop = parentPropOf c := by
  unfold generate_chunk_relationships at h
  cases hr : chunk.rows with
  | nil => rw [hr] at h; cases h
  | cons row0 rest =>
    rw [hr] at h
    dsimp only at h
    intro e he
    rcases relFold_mem_inv chunk triplets idField (rowCell row0 "type")
        (edgeColumnsOf chunk) [] edges h e he with hin | ⟨c, hc, hp⟩
    · simp at hin
    · exact ⟨hp.1, c, hc, hp.2.1, hp.2.2⟩

/-- C4 as stated is false on the code: a chunk with two relationship columns
"p.guid" and "p.alt" sharing the parent prefix "p" generates two descriptors
with the same grouping key (src_label, dst_label, handle) — so they land in
one group — but with different dst_prop values ("guid" vs "alt"). -/
theorem c4_counterexample :
    generate_chunk_relationships c4chunk c4triplets "guid" = .ok [c4item1, c4item2]
    ∧ groupedEdges [c4item1, c4item2] = [[c4item1, c4item2]]
    ∧ edgeKey c4item1 = edgeKey c4item2
    ∧ c4item1.src_prop = c4item2.src_prop
    ∧ c4item1.dst_prop ≠ c4item2.dst_prop := by
  have hle : edgeLE c4item1 c4item2 = true :=
    (edgeLE_iff _ _).mpr (le_of_eq (by rfl))
  have hsort : sortEdges [c4item1, c4item2] = [c4item1, c4item2] := by
    show insertSorted c4item1 [c4item2] = [c4item1, c4item2]
    unfold insertSorted
    rw [if_pos hle]
  refine ⟨by rfl, ?_, rfl, rfl, by decide⟩
  rw [groupedEdges, hsort]
  decide

/-- C4 amended: within each group of the partition, all descriptors share the
same src_prop (it is always the identifying field); they also share the same
dst_prop provided the chunk's relationship columns have pairwise distinct
parent prefixes — which the counterexample shows is necessary, since two
columns with the same parent fall into one group with different suffixes. -/
theorem c4_amended_shared_props (chunk : Chunk) (triplets : List EdgeTriplet)
    (idField : String) (edges : List EdgeItem)
    (hgen : generate_chunk_relationships chunk triplets idField = .ok edges)
    (hdistinct : ∀ c ∈ edgeColumnsOf chunk, ∀ c' ∈ edgeColumnsOf chunk,
        parentOf c = parentOf c' → c = c') :
    ∀ g ∈ groupedEdges edges, ∀ x ∈ g, ∀ y ∈ g,
      x.src_prop = y.src_prop ∧ x.dst_prop = y.dst_prop := by
  intro g hg x hx y hy
  have hmem : ∀ z ∈ g, z ∈ edges := by
    intro z hz
    have h1 : z ∈ (groupedEdges edges).flatten := List.mem_flatten.mpr ⟨g, hg, hz⟩
    rw [groupedEdges, groupConsec_flatten] at h1
    exact (sortEdges_perm edges).mem_iff.mp h1
  obtain ⟨hx1, cx, hcx, hx2, hx3⟩ :=
    generate_mem_fields chunk triplets idField edges hgen x (hmem x hx)
  obtain ⟨hy1, cy, hcy, hy2, hy3⟩ :=
    generate_mem_fields chunk triplets idField edges hgen y (hmem y hy)
  constructor
  · rw [hx1, hy1]
  · have hkey : edgeKey x = edgeKey y :=
      groupConsec_key_aux (sortEdges edges) g hg x hx y hy
    have hdst : x.dst_label = y.dst_label := congrArg (fun k => k.2.1) hkey
    have hpp : parentOf cx = parentOf cy := by
      rw [← hx2, ← hy2]
      exact hdst
    have hcc : cx = cy := hdistinct cx hcx cy hcy hpp
    rw [hx3, hy3, hcc]

/-- Witness for the amended C4 at a concrete chunk, group and descriptors:
the chunk's single relationship column has a trivially distinct parent prefix
and its group shares src_prop and dst_prop. -/
theorem c4_witness :
    c4witem3.src_prop = c4witem3.src_prop ∧ c4witem3.dst_prop = c4witem3.dst_prop :=
  c4_amended_shared_props c4wchunk2 c4triplets "guid" [c4witem3]
    (by rfl) (by decide) [c4witem3] (by decide) c4witem3 (by decide) c4witem3 (by decide)

theorem setProps_absorb (ks : List String) (r r' : Record) (p : Props) :
    setProps ks r' (setProps ks r p) = setProps ks r' p := by
  funext k
  unfold setProps
  by_cases hk : k ∈ ks
  · rw [if_pos hk, if_pos hk]
  · rw [if_neg hk, if_neg hk, if_neg hk]

theorem setProps_id_of {idf : String} {r : Record} {p : Props}
    (h : p idf = idOf idf r) (ks : List String) : setProps ks r p idf = p idf := by
  unfold setProps
  by_cases hk : idf ∈ ks
  · rw [if_pos hk, h]
    rfl
  · rw [if_neg hk]

theorem setProps_base_of {idf : String} {r : Record} {v : Option String}
    (h : idOf idf r = v) (ks : List String) :
    setProps ks r (baseProps idf v) idf = v := by
  unfold setProps baseProps
  by_cases hk : idf ∈ ks
  · rw [if_pos hk, ← h]
    rfl
  · rw [if_neg hk, if_pos rfl]

theorem lastMatch_cons (idf : String) (v : Option String) (r : Record) (rs : List Record) :
    lastMatch idf v (r :: rs)
      = match lastMatch idf v rs with
        | some r' => some r'
        | none => if idOf idf r = v then some r else none := rfl

theorem lastMatch_id {idf : String} {v : Option String} :
    ∀ {rs : List Record} {r : Record}, lastMatch idf v rs = some r → idOf idf r = v := by
  intro rs
  induction rs with
  | nil => intro r h; cases h
  | cons r' rs ih =>
    intro r h
    rw [lastMatch_cons] at h
    cases hlm : lastMatch idf v rs with
    | some r'' =>
      rw [hlm] at h
      injection h with h'
      rw [← h']
      exact ih hlm
    | none =>
      rw [hlm] at h
      dsimp only at h
      by_cases hr : idOf idf r' = v
      · rw [if_pos hr] at h
        injection h with h'
        rw [← h']
        exact hr
      · rw [if_neg hr] at h
        cases h

theorem lastMatch_some_of_mem {idf : String} {v : Option String} :
    ∀ {rs : List Record}, v ∈ rs.map (idOf idf) → ∃ r, lastMatch idf v rs = some r := by
  intro rs
  induction rs with
  | nil => intro h; simp at h
  | cons r' rs ih =>
    intro h
    rw [lastMatch_cons]
    cases hlm : lastMatch idf v rs with
    | some r'' => exact ⟨r'', rfl⟩
    | none =>
      rw [List.map_cons, List.mem_cons] at h
      rcases h with h | h
      · exact ⟨r', by dsimp only; rw [if_pos h.symm]⟩
      · obtain ⟨r₀, hr₀⟩ := ih h
        rw [hlm] at hr₀
        cases hr₀

theorem merge_match_view (τ idf : String) (ks : List String) (t : Nat)
    (st : List DBNode) (r : Record)
    (hm : st.any (nodeMatches τ idf (idOf idf r)) = true) :
    dataView (mergeRecord τ idf ks t st r).1 = (dataView st).map (updOne τ idf ks r)
    ∧ (mergeRecord τ idf ks t st r).2 = false := by
  unfold mergeRecord
  rw [if_pos hm]
  refine ⟨?_, rfl⟩
  unfold dataView
  rw [List.map_map, List.map_map]
  apply List.map_congr_left
  intro n _
  by_cases hn : nodeMatches τ idf (idOf idf r) n = true
  · simp only [Function.comp_apply]
    rw [if_pos hn]
    unfold updOne
    have hn' : n.label = τ ∧ n.props idf = idOf idf r := by
      simpa [nodeMatches] using hn
    rw [if_pos hn']
  · simp only [Function.comp_apply]
    rw [if_neg hn]
    unfold updOne
    have hn' : ¬ (n.label = τ ∧ n.props idf = idOf idf r) := by
      simpa [nodeMatches] using hn
    rw [if_neg hn']

theorem merge_new_view (τ idf : String) (ks : List String) (t : Nat)
    (st : List DBNode) (r : Record)
    (hm : st.any (nodeMatches τ idf (idOf idf r)) = false) :
    dataView (mergeRecord τ idf ks t st r).1
      = dataView st ++ [(τ, setProps ks r (baseProps idf (idOf idf r)))]
    ∧ (mergeRecord τ idf ks t st r).2 = true := by
  unfold mergeRecord
  rw [if_neg (by rw [hm]; exact Bool.false_ne_true)]
  refine ⟨?_, rfl⟩
  unfold dataView
  rw [List.map_append]
  rfl

theorem updOne_fst (τ idf : String) (ks : List String) (r : Record) (d : String × Props) :
    (updOne τ idf ks r d).1 = d.1 := by
  unfold updOne
  split <;> rfl

theorem updOne_id (τ idf : String) (ks : List String) (r : Record) (d : String × Props) :
    (updOne τ idf ks r d).2 idf = d.2 idf := by
  unfold updOne
  split
  · next hcond => exact setProps_id_of hcond.2 ks
  · rfl

theorem updD_fst (τ idf : String) (ks : List String) (rs : List Record) (d : String × Props) :
    (updD τ idf ks rs d).1 = d.1 := by
  unfold updD
  split
  · split <;> rfl
  · rfl

theorem updD_id (τ idf : String) (ks : List String) (rs : List Record) (d : String × Props) :
    (updD τ idf ks rs d).2 idf = d.2 idf := by
  unfold updD
  by_cases h1 : d.1 = τ
  · rw [if_pos h1]
    cases hlm : lastMatch idf (d.2 idf) rs with
    | some r => exact setProps_id_of (lastMatch_id hlm).symm ks
    | none => rfl
  · rw [if_neg h1]

theorem updD_cons_of_ne (τ idf : String) (ks : List String) (r : Record) (rs : List Record)
    (d : String × Props) (h : d.2 idf ≠ idOf idf r) :
    updD τ idf ks (r :: rs) d = updD τ idf ks rs d := by
  unfold updD
  by_cases h1 : d.1 = τ
  · rw [if_pos h1, if_pos h1, lastMatch_cons]
    cases hlm : lastMatch idf (d.2 idf) rs with
    | some r'' => rfl
    | none =>
      dsimp only
      rw [if_neg (fun hc => h hc.symm)]
  · rw [if_neg h1, if_neg h1]

theorem updD_not_label (τ idf : String) (ks : List String) (rs : List Record)
    (d : String × Props) (h : d.1 ≠ τ) : updD τ idf ks rs d = d := by
  unfold updD
  rw [if_neg h]

theorem updD_compose (τ idf : String) (ks : List String) (r : Record) (rs : List Record)
    (d : String × Props) :
    updD τ idf ks (r :: rs) d = updD τ idf ks rs (updOne τ idf ks r d) := by
  unfold updOne
  by_cases h1 : d.1 = τ
  · by_cases h2 : d.2 idf = idOf idf r
    · rw [if_pos ⟨h1, h2⟩]
      unfold updD
      have hid : setProps ks r d.2 idf = d.2 idf := setProps_id_of h2 ks
      rw [if_pos h1, if_pos h1]
      dsimp only
      rw [hid, lastMatch_cons]
      cases hlm : lastMatch idf (d.2 idf) rs with
      | some r'' =>
        dsimp only
        rw [setProps_absorb]
      | none =>
        dsimp only
        rw [if_pos h2.symm]
    · rw [if_neg (fun hc => h2 hc.2)]
      exact updD_cons_of_ne τ idf ks r rs d h2
  · rw [if_neg (fun hc => h1 hc.1)]
    rw [updD_not_label τ idf ks (r :: rs) d h1, updD_not_label τ idf ks rs d h1]

theorem updD_idem (τ idf : String) (ks : List String) (rs : List Record)
    (d : String × Props) :
    updD τ idf ks rs (updD τ idf ks rs d) = updD τ idf ks rs d := by
  by_cases h1 : d.1 = τ
  · cases hlm : lastMatch idf (d.2 idf) rs with
    | none =>
      have hd : updD τ idf ks rs d = d := by
        unfold updD
        rw [if_pos h1, hlm]
      rw [hd]
      exact hd
    | some r'' =>
      have hd : updD τ idf ks rs d = (d.1, setProps ks r'' d.2) := by
        unfold updD
        rw [if_pos h1, hlm]
      rw [hd]
      unfold updD
      rw [if_pos h1]
      dsimp only
      have hid : setProps ks r'' d.2 idf = d.2 idf :=
        setProps_id_of (lastMatch_id hlm).symm ks
      rw [hid, hlm]
      dsimp only
      rw [setProps_absorb]
  · have hd : updD τ idf ks rs d = d := updD_not_label τ idf ks rs d h1
    rw [hd]
    exact hd

theorem mkNewD_fst (τ idf : String) (ks : List String) (rs : List Record)
    (v : Option String) : (mkNewD τ idf ks rs v).1 = τ := by
  unfold mkNewD
  split <;> rfl

theorem mkNewD_id (τ idf : String) (ks : List String) (rs : List Record)
    (v : Option String) : (mkNewD τ idf ks rs v).2 idf = v := by
  unfold mkNewD
  cases hlm : lastMatch idf v rs with
  | some r =>
    dsimp only
    exact setProps_base_of (lastMatch_id hlm) ks
  | none =>
    dsimp only
    unfold baseProps
    rw [if_pos rfl]

theorem mkNewD_cons_of_ne (τ idf : String) (ks : List String) (r : Record)
    (rs : List Record) {w : Option String} (h : w ≠ idOf idf r) :
    mkNewD τ idf ks (r :: rs) w = mkNewD τ idf ks rs w := by
  unfold mkNewD
  rw [lastMatch_cons]
  cases hlm : lastMatch idf w rs with
  | some r'' => rfl
  | none =>
    dsimp only
    rw [if_neg (fun hc => h hc.symm)]

theorem updD_mkNewD (τ idf : String) (ks : List String) (rs : List Record)
    {w : Option String} (hw : w ∈ rs.map (idOf idf)) :
    updD τ idf ks rs (mkNewD τ idf ks rs w) = mkNewD τ idf ks rs w := by
  obtain ⟨r₀, hr₀⟩ := lastMatch_some_of_mem hw
  have hmk : mkNewD τ idf ks rs w = (τ, setProps ks r₀ (baseProps idf w)) := by
    unfold mkNewD
    rw [hr₀]
  rw [hmk]
  unfold updD
  rw [if_pos rfl]
  dsimp only
  have hid : setProps ks r₀ (baseProps idf w) idf = w := setProps_base_of (lastMatch_id hr₀) ks
  rw [hid, hr₀]
  dsimp only
  rw [setProps_absorb]

theorem updD_newnode (τ idf : String) (ks : List String) (r : Record) (rs : List Record) :
    updD τ idf ks rs ((τ : String), setProps ks r (baseProps idf (idOf idf r)))
      = mkNewD τ idf ks (r :: rs) (idOf idf r) := by
  unfold updD mkNewD
  rw [if_pos rfl]
  dsimp only
  rw [setProps_base_of rfl ks, lastMatch_cons]
  cases hlm : lastMatch idf (idOf idf r) rs with
  | some r'' =>
    dsimp only
    rw [setProps_absorb]
  | none =>
    dsimp only
    rw [if_pos rfl]

theorem presentIds_append (τ idf : String) (ds1 ds2 : List (String × Props)) :
    presentIds τ idf (ds1 ++ ds2) = presentIds τ idf ds1 ++ presentIds τ idf ds2 := by
  unfold presentIds
  rw [List.filter_append, List.map_append]

theorem presentIds_map_eq (τ idf : String) (f : String × Props → String × Props)
    (hf1 : ∀ d, (f d).1 = d.1) (hf2 : ∀ d, (f d).2 idf = d.2 idf) :
    ∀ ds, presentIds τ idf (ds.map f) = presentIds τ idf ds := by
  intro ds
  induction ds with
  | nil => rfl
  | cons d ds ih =>
    unfold presentIds at ih ⊢
    rw [List.map_cons, List.filter_cons, List.filter_cons]
    rw [show (decide ((f d).1 = τ)) = (decide (d.1 = τ)) from by rw [hf1]]
    by_cases hd : d.1 = τ
    · rw [if_pos (decide_eq_true hd), if_pos (decide_eq_true hd)]
      rw [List.map_cons, List.map_cons, hf2, ih]
    · rw [if_neg (by simp [hd]), if_neg (by simp [hd])]
      exact ih

theorem mem_presentIds {τ idf : String} {v : Option String} {ds : List (String × Props)} :
    v ∈ presentIds τ idf ds ↔ ∃ d ∈ ds, d.1 = τ ∧ d.2 idf = v := by
  unfold presentIds
  simp only [List.mem_map, List.mem_filter, decide_eq_true_eq]
  constructor
  · rintro ⟨d, ⟨hds, hτ⟩, hv⟩
    exact ⟨d, hds, hτ, hv⟩
  · rintro ⟨d, hds, hτ, hv⟩
    exact ⟨d, ⟨hds, hτ⟩, hv⟩

theorem any_iff_present (τ idf : String) (st : List DBNode) (v : Option String) :
    st.any (nodeMatches τ idf v) = true ↔ v ∈ presentIds τ idf (dataView st) := by
  rw [List.any_eq_true, mem_presentIds]
  constructor
  · rintro ⟨n, hn, hm⟩
    have hm' : n.label = τ ∧ n.props idf = v := by simpa [nodeMatches] using hm
    exact ⟨(n.label, n.props), List.mem_map_of_mem _ hn, hm'.1, hm'.2⟩
  · rintro ⟨d, hd, h1, h2⟩
    obtain ⟨n, hn, rfl⟩ := List.mem_map.mp hd
    exact ⟨n, hn, by simp only [nodeMatches, Bool.and_eq_true, decide_eq_true_eq]; exact ⟨h1, h2⟩⟩

theorem newIdsAux_nil_of {p : List (Option String)} :
    ∀ {vs : List (Option String)}, (∀ v ∈ vs, v ∈ p) → newIdsAux p vs = [] := by
  intro vs
  induction vs with
  | nil => intro _; rfl
  | cons v vs ih =>
    intro h
    unfold newIdsAux
    rw [if_pos (h v (List.mem_cons_self _ _))]
    exact ih (fun x hx => h x (List.mem_cons_of_mem _ hx))

theorem mem_newIdsAux : ∀ {vs p : List (Option String)} {w : Option String},
    w ∈ newIdsAux p vs → w ∈ vs ∧ w ∉ p := by
  intro vs
  induction vs with
  | nil => intro p w h; simp [newIdsAux] at h
  | cons v vs ih =>
    intro p w h
    unfold newIdsAux at h
    by_cases hv : v ∈ p
    · rw [if_pos hv] at h
      obtain ⟨h1, h2⟩ := ih h
      exact ⟨List.mem_cons_of_mem _ h1, h2⟩
    · rw [if_neg hv] at h
      rcases List.mem_cons.mp h with rfl | h'
      · exact ⟨List.mem_cons_self _ _, hv⟩
      · obtain ⟨h1, h2⟩ := ih h'
        exact ⟨List.mem_cons_of_mem _ h1, fun hc => h2 (List.mem_cons_of_mem _ hc)⟩

theorem mem_newIdsAux_of : ∀ {vs p : List (Option String)} {w : Option String},
    w ∈ vs → w ∉ p → w ∈ newIdsAux p vs := by
  intro vs
  induction vs with
  | nil => intro p w h; simp at h
  | cons v vs ih =>
    intro p w hw hp
    unfold newIdsAux
    by_cases hv : v ∈ p
    · rw [if_pos hv]
      rcases List.mem_cons.mp hw with rfl | hw'
      · exact absurd hv hp
      · exact ih hw' hp
    · rw [if_neg hv]
      rcases List.mem_cons.mp hw with rfl | hw'
      · exact List.mem_cons_self _ _
      · by_cases hwv : w = v
        · rw [hwv]
          exact List.mem_cons_self _ _
        · refine List.mem_cons_of_mem _ (ih hw' ?_)
          intro hc
          rcases List.mem_cons.mp hc with h | h
          · exact hwv h
          · exact hp h

theorem newIdsAux_congr : ∀ (vs p q : List (Option String)),
    (∀ x, x ∈ p ↔ x ∈ q) → newIdsAux p vs = newIdsAux q vs := by
  intro vs
  induction vs with
  | nil => intro p q _; rfl
  | cons v vs ih =>
    intro p q h
    unfold newIdsAux
    by_cases hv : v ∈ p
    · rw [if_pos hv, if_pos ((h v).mp hv)]
      exact ih p q h
    · rw [if_neg hv, if_neg (fun hc => hv ((h v).mpr hc))]
      rw [ih (v :: p) (v :: q) (fun x => by simp only [List.mem_cons, h x])]

theorem newIdsAux_cons (p : List (Option String)) (v : Option String)
    (vs : List (Option String)) :
    newIdsAux p (v :: vs)
      = if v ∈ p then newIdsAux p vs else v :: newIdsAux (v :: p) vs := rfl

theorem runMerge_spec (τ idf : String) (ks : List String) (t : Nat) :
    ∀ (rs : List Record) (st : List DBNode),
      dataView (runMerge τ idf ks t st rs).1
        = (dataView st).map (updD τ idf ks rs)
          ++ (newIdsAux (presentIds τ idf (dataView st)) (rs.map (idOf idf))).map
               (mkNewD τ idf ks rs)
      ∧ (runMerge τ idf ks t st rs).2
        = (newIdsAux (presentIds τ idf (dataView st)) (rs.map (idOf idf))).length := by
  intro rs
  induction rs with
  | nil =>
    intro st
    constructor
    · show dataView st = _
      rw [List.map_nil]
      rw [show newIdsAux (presentIds τ idf (dataView st)) [] = [] from rfl]
      rw [List.map_nil, List.append_nil]
      refine ((List.map_congr_left ?_).trans (List.map_id _)).symm
      intro d _
      show updD τ idf ks [] d = d
      unfold updD
      split
      · rfl
      · rfl
    · rfl
  | cons r rs ih =>
    intro st
    have hA : (runMerge τ idf ks t st (r :: rs)).1
        = (runMerge τ idf ks t (mergeRecord τ idf ks t st r).1 rs).1 := rfl
    have hB : (runMerge τ idf ks t st (r :: rs)).2
        = (if (mergeRecord τ idf ks t st r).2 then 1 else 0)
          + (runMerge τ idf ks t (mergeRecord τ idf ks t st r).1 rs).2 := rfl
    obtain ⟨ih1, ih2⟩ := ih (mergeRecord τ idf ks t st r).1
    cases hm : st.any (nodeMatches τ idf (idOf idf r)) with
    | true =>
      obtain ⟨hview, hflag⟩ := merge_match_view τ idf ks t st r hm
      have hv : idOf idf r ∈ presentIds τ idf (dataView st) :=
        (any_iff_present τ idf st _).mp hm
      have hpres : presentIds τ idf (dataView (mergeRecord τ idf ks t st r).1)
          = presentIds τ idf (dataView st) := by
        rw [hview]
        exact presentIds_map_eq τ idf _ (fun d => updOne_fst τ idf ks r d)
          (fun d => updOne_id τ idf ks r d) _
      have hnew : newIdsAux (presentIds τ idf (dataView st))
          (List.map (idOf idf) (r :: rs))
        = newIdsAux (presentIds τ idf (dataView st)) (rs.map (idOf idf)) := by
        rw [List.map_cons, newIdsAux_cons, if_pos hv]
      constructor
      · rw [hA, ih1, hpres, hview, List.map_map, hnew]
        congr 1
        · apply List.map_congr_left
          intro d _
          exact (updD_compose τ idf ks r rs d).symm
        · apply List.map_congr_left
          intro w hw
          have hne : w ≠ idOf idf r := fun hc => (mem_newIdsAux hw).2 (hc ▸ hv)
          exact (mkNewD_cons_of_ne τ idf ks r rs hne).symm
      · rw [hB, hflag, ih2, hpres, hnew]
        simp
    | false =>
      obtain ⟨hview, hflag⟩ := merge_new_view τ idf ks t st r hm
      have hv : idOf idf r ∉ presentIds τ idf (dataView st) := by
        intro hc
        have hcontra := (any_iff_present τ idf st _).mpr hc
        rw [hm] at hcontra
        cases hcontra
      have hpd : presentIds τ idf
          [((τ : String), setProps ks r (baseProps idf (idOf idf r)))] = [idOf idf r] := by
        unfold presentIds
        rw [List.filter_cons, if_pos (by simp), List.filter_nil, List.map_cons, List.map_nil]
        dsimp only
        rw [setProps_base_of rfl ks]
      have hpres : presentIds τ idf (dataView (mergeRecord τ idf ks t st r).1)
          = presentIds τ idf (dataView st) ++ [idOf idf r] := by
        rw [hview, presentIds_append, hpd]
      have hcongr : newIdsAux (presentIds τ idf (dataView st) ++ [idOf idf r])
            (rs.map (idOf idf))
          = newIdsAux (idOf idf r :: presentIds τ idf (dataView st)) (rs.map (idOf idf)) :=
        newIdsAux_congr _ _ _
          (fun x => by
            simp only [List.mem_append, List.mem_cons, List.not_mem_nil, or_false]
            tauto)
      have hnew : newIdsAux (presentIds τ idf (dataView st))
          (List.map (idOf idf) (r :: rs))
        = idOf idf r
            :: newIdsAux (idOf idf r :: presentIds τ idf (dataView st)) (rs.map (idOf idf)) := by
        rw [List.map_cons, newIdsAux_cons, if_neg hv]
      constructor
      · rw [hA, ih1, hpres, hcongr, hview, List.map_append, hnew]
        simp only [List.map_cons, List.map_nil]
        rw [List.append_assoc, List.singleton_append]
        congr 1
        · apply List.map_congr_left
          intro d hd
          by_cases hd1 : d.1 = τ
          · have hdne : d.2 idf ≠ idOf idf r := by
              intro hc
              exact hv (mem_presentIds.mpr ⟨d, hd, hd1, hc⟩)
            exact (updD_cons_of_ne τ idf ks r rs d hdne).symm
          · rw [updD_not_label τ idf ks rs d hd1, updD_not_label τ idf ks (r :: rs) d hd1]
        · congr 1
          · exact updD_newnode τ idf ks r rs
          · apply List.map_congr_left
            intro w hw
            have hne : w ≠ idOf idf r := by
              intro hc
              exact (mem_newIdsAux hw).2 (hc ▸ List.mem_cons_self _ _)
            exact (mkNewD_cons_of_ne τ idf ks r rs hne).symm
      · rw [hB, hflag, ih2, hpres, hcongr, hnew]
        rw [List.length_cons]
        simp [Nat.add_comm]

theorem runMerge_present (τ idf : String) (ks : List String) (t : Nat)
    (rs : List Record) (st : List DBNode) :
    ∀ w ∈ rs.map (idOf idf),
      w ∈ presentIds τ idf (dataView (runMerge τ idf ks t st rs).1) := by
  intro w hw
  obtain ⟨hare, _⟩ := runMerge_spec τ idf ks t rs st
  rw [hare, presentIds_append]
  by_cases hwp : w ∈ presentIds τ idf (dataView st)
  · apply List.mem_append_left
    rw [presentIds_map_eq τ idf _ (fun d => updD_fst τ idf ks rs d)
      (fun d => updD_id τ idf ks rs d)]
    exact hwp
  · apply List.mem_append_right
    apply mem_presentIds.mpr
    exact ⟨mkNewD τ idf ks rs w,
      List.mem_map_of_mem _ (mem_newIdsAux_of hw hwp),
      mkNewD_fst τ idf ks rs w, mkNewD_id τ idf ks rs w⟩

theorem mem_allKeys {k : String} :
    ∀ {rs : List Record}, k ∈ allKeys rs ↔ ∃ r ∈ rs, k ∈ recKeys r := by
  intro rs
  induction rs with
  | nil => simp [allKeys]
  | cons r rs ih =>
    show k ∈ recKeys r ++ allKeys rs ↔ _
    constructor
    · intro h
      rcases List.mem_append.mp h with h | h
      · exact ⟨r, List.mem_cons_self _ _, h⟩
      · obtain ⟨r', hr', hk⟩ := ih.mp h
        exact ⟨r', List.mem_cons_of_mem _ hr', hk⟩
    · rintro ⟨r', hr', hk⟩
      rcases List.mem_cons.mp hr' with rfl | hr''
      · exact List.mem_append_left _ hk
      · exact List.mem_append_right _ (ih.mpr ⟨r', hr'', hk⟩)

/-- C1: node upsert is idempotent — running the same batch twice with the same
identifying property leaves the same entity set with identical labels and
properties as one run (timestamps are the separately stamped created/updated
fields), and the second run creates zero nodes, since every identifier of the
batch is already present after the first run. -/
theorem c1_node_upsert_idempotent (τ : String) (records : List Record)
    (idField : String) (t1 t2 : Nat) (st : List DBNode) :
    dataView (upsert_chunk_records_with_tx τ records idField t2
        (upsert_chunk_records_with_tx τ records idField t1 st).1).1
      = dataView (upsert_chunk_records_with_tx τ records idField t1 st).1
    ∧ (upsert_chunk_records_with_tx τ records idField t2
        (upsert_chunk_records_with_tx τ records idField t1 st).1).2 = 0 := by
  show dataView (runMerge τ idField (allKeys records) t2
      (runMerge τ idField (allKeys records) t1 st records).1 records).1
    = dataView (runMerge τ idField (allKeys records) t1 st records).1
    ∧ (runMerge τ idField (allKeys records) t2
      (runMerge τ idField (allKeys records) t1 st records).1 records).2 = 0
  obtain ⟨h2are, h2cnt⟩ := runMerge_spec τ idField (allKeys records) t2 records
    (runMerge τ idField (allKeys records) t1 st records).1
  have hnil : newIdsAux (presentIds τ idField
      (dataView (runMerge τ idField (allKeys records) t1 st records).1))
      (records.map (idOf idField)) = [] :=
    newIdsAux_nil_of (runMerge_present τ idField (allKeys records) t1 records st)
  constructor
  · rw [h2are, hnil, List.map_nil, List.append_nil]
    obtain ⟨h1are, _⟩ := runMerge_spec τ idField (allKeys records) t1 records st
    refine (List.map_congr_left ?_).trans (List.map_id _)
    intro d hd
    rw [h1are] at hd
    rcases List.mem_append.mp hd with hdP | hdN
    · obtain ⟨d', _, rfl⟩ := List.mem_map.mp hdP
      exact updD_idem τ idField (allKeys records) records d'
    · obtain ⟨w, hwmem, rfl⟩ := List.mem_map.mp hdN
      exact updD_mkNewD τ idField (allKeys records) records (mem_newIdsAux hwmem).1
  · rw [h2cnt, hnil]
    rfl

/-- C2: the node pass collects the union of the batch's property keys into the
single statement it issues — one batched write keyed by the entity type and
the identifying field; executing it iterates the record list, where a record
whose identifier matches existing nodes updates all of them (collected
properties plus the updated timestamp, creating nothing) and a record with a
fresh identifier appends one node (collected properties plus the created
timestamp); afterwards every record's identifier is present; on a write
failure the store is rolled back unchanged and the error is propagated. -/
theorem c2_node_batch_write (writeOk : Bool) (τ : String) (records : List Record)
    (idField : String) (t : Nat) (st : List DBNode) (hne : records ≠ []) :
    (∀ k, k ∈ (buildNodeUpsertStmt τ records idField).set_keys
        ↔ ∃ r ∈ records, k ∈ recKeys r)
    ∧ (upsertChunkRecordsTx writeOk τ records idField t st).1
        = [buildNodeUpsertStmt τ records idField]
    ∧ (buildNodeUpsertStmt τ records idField).node_type = τ
    ∧ (buildNodeUpsertStmt τ records idField).id_field = idField
    ∧ upsert_chunk_records_with_tx τ records idField t st
        = runMerge τ idField (allKeys records) t st records
    ∧ (∀ st' r, st'.any (nodeMatches τ idField (idOf idField r)) = true →
        mergeRecord τ idField (allKeys records) t st' r
          = (st'.map (fun n => if nodeMatches τ idField (idOf idField r) n then
              { n with props := setProps (allKeys records) r n.props, updated := some t }
              else n), false))
    ∧ (∀ st' r, st'.any (nodeMatches τ idField (idOf idField r)) = false →
        mergeRecord τ idField (allKeys records) t st' r
          = (st' ++ [{ label := τ,
                       props := setProps (allKeys records) r
                         (baseProps idField (idOf idField r)),
                       created := some t, updated := none }], true))
    ∧ (∀ r ∈ records,
        ∃ d ∈ dataView (upsert_chunk_records_with_tx τ records idField t st).1,
          d.1 = τ ∧ d.2 idField = idOf idField r)
    ∧ (writeOk = false → (upsertChunkRecordsTx writeOk τ records idField t st).2.1 = st
        ∧ (upsertChunkRecordsTx writeOk τ records idField t st).2.2
            = .error "Error upserting records")
    ∧ (writeOk = true → (upsertChunkRecordsTx writeOk τ records idField t st).2.1
        = (upsert_chunk_records_with_tx τ records idField t st).1
        ∧ (upsertChunkRecordsTx writeOk τ records idField t st).2.2
            = .ok ⟨(upsert_chunk_records_with_tx τ records idField t st).2⟩) := by
  refine ⟨fun k => mem_allKeys, ?_, rfl, rfl, rfl, ?_, ?_, ?_, ?_, ?_⟩
  · cases writeOk <;> rfl
  · intro st' r hmatch
    unfold mergeRecord
    rw [if_pos hmatch]
  · intro st' r hnew
    unfold mergeRecord
    rw [if_neg (by rw [hnew]; exact Bool.false_ne_true)]
  · intro r hr
    have hw : idOf idField r ∈ records.map (idOf idField) := List.mem_map_of_mem _ hr
    have := runMerge_present τ idField (allKeys records) t records st _ hw
    exact mem_presentIds.mp this
  · intro hfail
    rw [hfail]
    exact ⟨rfl, rfl⟩
  · intro hok
    rw [hok]
    exact ⟨rfl, rfl⟩

/-- Witness for C2: after upserting one concrete record into the empty store,
its identifier is present under the entity type. -/
theorem c2_witness :
    ∃ d ∈ dataView (upsert_chunk_records_with_tx "s"
        [[("guid", "g1"), ("name", "n")]] "guid" 0 []).1,
      d.1 = "s" ∧ d.2 "guid" = idOf "guid" [("guid", "g1"), ("name", "n")] :=
  (c2_node_batch_write true "s" [[("guid", "g1"), ("name", "n")]] "guid" 0 []
    (by simp)).2.2.2.2.2.2.2.1 [("guid", "g1"), ("name", "n")] (by simp)

end MEVAL
